import Mathlib

/-!
Verification development for the run-execution engine of simexpal
(src/simexpal/launch/common.py).

The Python module is shallowly embedded: the filesystem is an explicit
state value threaded through the operations, YAML documents become typed
records, Python dictionaries become insertion-ordered association lists
with Python dict semantics, and byte strings become lists of naturals.
External collaborator functions (the naming helpers from the base module,
the placeholder expansion from the util module and the OS signal-name
table) are parameters of the embedding, mirroring their role as external
interfaces of the engine.
-/

namespace Simexpal

/-! Association lists with Python-dict semantics: insertion ordered,
keys unique, writing an existing key replaces its value in place,
writing a fresh key appends the binding at the end. -/

/-- Lookup of a key, returning the first matching binding. -/
def alookup {α : Type} : List (String × α) → String → Option α
  | [], _ => none
  | (k, v) :: d, q => if q = k then some v else alookup d q

/-- Key-membership test, as Python `in` on a dict. -/
def hasKey {α : Type} (d : List (String × α)) (k : String) : Bool :=
  (alookup d k).isSome

/-- Write one binding with Python dict semantics: if the key is present,
its value is replaced keeping the insertion position; otherwise the
binding is appended at the end. -/
def setEntry {α : Type} : List (String × α) → String → α → List (String × α)
  | [], k, v => [(k, v)]
  | p :: d, k, v => if p.1 = k then (k, v) :: d else p :: setEntry d k v

/-! Python dict.update as used throughout the module: fold setEntry over
the source bindings in order. -/

/-- Python d.update(src): iterate over the bindings of src in order,
writing each into d. -/
def updateDict {α : Type} (d src : List (String × α)) : List (String × α) :=
  src.foldl (fun a p => setEntry a p.1 p.2) d

/-- Value of the last binding of a key in an association list; this is
the value dict.update leaves behind for that key. -/
def lastLookup {α : Type} : List (String × α) → String → Option α
  | [], _ => none
  | (k, v) :: d, q =>
    match lastLookup d q with
    | some w => some w
    | none => if q = k then some v else none


/-! Filesystem model: a set of directories and a map from file paths to
byte contents.  Every primitive below is one atomic kernel operation of
the Python code (os.mkdir, os.open with O_CREAT bar O_EXCL, open for
writing, write, os.rename). -/

/-- Byte string: a list of byte values. -/
abbrev Bytes := List Nat

/-- Filesystem state: existing directories and existing files with their
contents. -/
structure FSState where
  dirs : List String
  files : List (String × Bytes)
deriving DecidableEq, Repr

/-- Test whether a file exists. -/
def fileExists (fs : FSState) (p : String) : Bool :=
  (alookup fs.files p).isSome

/-- Content of a file, none when the file does not exist. -/
def readFile (fs : FSState) (p : String) : Option Bytes :=
  alookup fs.files p

/-- util.try_mkdir: create the directory unless it already exists. -/
def try_mkdir (fs : FSState) (p : String) : FSState :=
  if fs.dirs.contains p then fs else ⟨fs.dirs ++ [p], fs.files⟩

/-- Atomic exclusive create, os.open with O_RDONLY, O_CREAT and O_EXCL:
fails (none, the FileExistsError branch) when the file exists, otherwise
creates it empty in one atomic kernel operation. -/
def openExclCreate (fs : FSState) (p : String) : Option FSState :=
  if fileExists fs p then none
  else some ⟨fs.dirs, fs.files ++ [(p, [])]⟩

/-- Python open(p, "w"): create the file, or truncate it to empty if it
already exists. -/
def openTruncate (fs : FSState) (p : String) : FSState :=
  ⟨fs.dirs, setEntry fs.files p []⟩

/-- One write to an open file: append the chunk to the current content.
The fallback branch for a missing file is unreachable in the traces
below, which only append to a file just created by openTruncate. -/
def appendFile (fs : FSState) (p : String) (chunk : Bytes) : FSState :=
  match alookup fs.files p with
  | some c => ⟨fs.dirs, setEntry fs.files p (c ++ chunk)⟩
  | none => ⟨fs.dirs, setEntry fs.files p chunk⟩

/-- Delete a file from the file map. -/
def removeFile (files : List (String × Bytes)) (p : String) : List (String × Bytes) :=
  files.filter (fun q => q.1 ≠ p)

/-- os.rename src dst: atomically move the content of src to dst,
replacing dst.  The fallback branch for a missing src is unreachable in
the traces below, which only rename a file created moments before. -/
def renameFile (fs : FSState) (src dst : String) : FSState :=
  match alookup fs.files src with
  | some c => ⟨fs.dirs, setEntry (removeFile fs.files src) dst c⟩
  | none => fs

/-! Run context.  The live run object carries the configuration base
directory, the per-experiment auxiliary and output subdirectories, and
the external naming collaborator run.aux_file_path from the base module;
the engine only requires that the same naming function is used
consistently, so it is a function field here. -/

/-- View of the live run object as consumed by lock_run and
create_run_file. -/
structure RunCtx where
  basedir : String
  aux_subdir : String
  output_subdir : String
  auxFilePath : String → String

/-- lock_run from src/simexpal/launch/common.py lines 16 to 37:
idempotently create the auxiliary and output directory hierarchy, then
try one atomic exclusive create of the lock marker; return false on
FileExistsError, true when this call created the marker. -/
def lock_run (run : RunCtx) (fs : FSState) : FSState × Bool :=
  let fs1 := try_mkdir fs (run.basedir ++ "/aux")
  let fs2 := try_mkdir fs1 (run.basedir ++ "/output")
  let fs3 := try_mkdir fs2 run.aux_subdir
  let fs4 := try_mkdir fs3 run.output_subdir
  match openExclCreate fs4 (run.auxFilePath "lock") with
  | none => (fs4, false)
  | some fs5 => (fs5, true)

/-- create_run_file from lines 39 to 45: create the empty run.tmp file,
then atomically rename it onto the run marker.  This is the final
filesystem state. -/
def create_run_file (run : RunCtx) (fs : FSState) : FSState :=
  renameFile (openTruncate fs (run.auxFilePath "run.tmp"))
    (run.auxFilePath "run.tmp") (run.auxFilePath "run")

/-- Trace of filesystem states an external observer could see during
create_run_file: the initial state, the state after the empty run.tmp
file is created, and the state after the atomic rename onto the run
marker. -/
def create_run_file_trace (run : RunCtx) (fs : FSState) : List FSState :=
  [fs, openTruncate fs (run.auxFilePath "run.tmp"), create_run_file run fs]

/-! Manifest data model: the typed form of the YAML document wrapped by
RunManifest.  Field inst stands for the source key named instance, which
is a reserved word here. -/

/-- One entry of the variants list of the manifest. -/
structure VariantYml where
  name : String
  extra_args : List String
  environ : List (String × String)
deriving DecidableEq, Repr

/-- One entry of the builds list of the manifest; prefix_dir is the
source key named prefix. -/
structure BuildYml where
  prefix_dir : String
  exports_python : List String
deriving DecidableEq, Repr

/-- The config sub-document of the manifest. -/
structure ConfigYml where
  base_dir : String
  instance_dir : String
deriving DecidableEq, Repr

/-- The YAML document underlying a RunManifest. -/
structure RunYml where
  config : ConfigYml
  experiment : String
  variants : List VariantYml
  revision : Option String
  inst : String
  repetition : Nat
  builds : List BuildYml
  args : List String
  timeout : Option ℚ
  environ : List (String × String)
  output : Option String
  workdir : Option String
deriving DecidableEq, Repr

namespace RunManifest

/-- Value computed by the environ property, lines 82 to 88: start from
the top-level environ dict of the document and update it with each
environ dict of each variant in list order. -/
def environVal (y : RunYml) : List (String × String) :=
  y.variants.foldl (fun env v => updateDict env v.environ) y.environ

/-- The environ property as executed: env_vars aliases the environ dict
inside the document, and dict.update mutates it in place, so the read
returns the merged dict and leaves the document with its environ field
replaced by that merged dict. -/
def environRead (y : RunYml) : List (String × String) × RunYml :=
  let merged := environVal y
  (merged, ⟨y.config, y.experiment, y.variants, y.revision, y.inst, y.repetition,
    y.builds, y.args, y.timeout, merged, y.output, y.workdir⟩)

/-- Priority lookup across a variant list: the last variant binding a
key wins; this is the specification-side reading of the merge rule of
the environ property. -/
def variantsLookup : List VariantYml → String → Option String
  | [], _ => none
  | v :: rest, q =>
    match variantsLookup rest q with
    | some w => some w
    | none => lastLookup v.environ q

/-- get_extra_args, lines 122 to 126: concatenate the per-variant
extra_args lists in list order. -/
def get_extra_args (y : RunYml) : List String :=
  y.variants.foldl (fun acc v => acc ++ v.extra_args) []

/-- get_paths, lines 128 to 132: one bin path per build, in builds list
order. -/
def get_paths (y : RunYml) : List String :=
  y.builds.foldl (fun acc b => acc ++ [b.prefix_dir ++ "/bin"]) []

/-- get_ldso_paths, lines 134 to 139: lib64 then lib per build, in
builds list order. -/
def get_ldso_paths (y : RunYml) : List String :=
  y.builds.foldl (fun acc b => acc ++ [b.prefix_dir ++ "/lib64", b.prefix_dir ++ "/lib"]) []

/-- get_python_paths, lines 141 to 146: one path per exported module per
build, in list order. -/
def get_python_paths (y : RunYml) : List String :=
  y.builds.foldl (fun acc b =>
    b.exports_python.foldl (fun a e => a ++ [b.prefix_dir ++ "/" ++ e]) acc) []

end RunManifest

/-! External naming collaborators from the base module, consumed by the
aux_subdir, output_subdir, aux_file_path and output_file_path properties
of RunManifest (lines 98 to 120). -/

/-- The four naming functions of the base module, taken as an external
interface. -/
structure NamingCtx where
  get_aux_subdir : String → String → List String → Option String → String
  get_output_subdir : String → String → List String → Option String → String
  get_aux_file_name : String → String → Nat → String
  get_output_file_name : String → String → Nat → String

namespace RunManifest

/-- aux_subdir property, lines 98 to 102. -/
def aux_subdir (nc : NamingCtx) (y : RunYml) : String :=
  nc.get_aux_subdir y.config.base_dir y.experiment (y.variants.map VariantYml.name) y.revision

/-- output_subdir property, lines 104 to 108. -/
def output_subdir (nc : NamingCtx) (y : RunYml) : String :=
  nc.get_output_subdir y.config.base_dir y.experiment (y.variants.map VariantYml.name) y.revision

/-- aux_file_path, lines 114 to 116. -/
def aux_file_path (nc : NamingCtx) (y : RunYml) (ext : String) : String :=
  aux_subdir nc y ++ "/" ++ nc.get_aux_file_name ext y.inst y.repetition

/-- output_file_path, lines 118 to 120. -/
def output_file_path (nc : NamingCtx) (y : RunYml) (ext : String) : String :=
  output_subdir nc y ++ "/" ++ nc.get_output_file_name ext y.inst y.repetition

end RunManifest

/-! Build-closure discovery of compile_manifest, lines 148 to 177.
The get_build table of the configuration is a finite name-to-build table; a lookup
of an unknown name raises in Python and is the none outcome here.  The
assert on duplicate directly-used builds is likewise the none outcome.
The while loop over the growing recursive_builds list is embedded with a
fuel parameter; compile_manifest runs it with enough fuel for any
configuration, and every theorem below is conditional on the loop
returning a result, which happens exactly when the traversal finishes. -/

/-- Relevant data of one configured build: its installation prefix, its
named requirements and its exported python module paths. -/
structure BuildInfo where
  prefix_dir : String
  requirements : List String
  exports_python : List String
deriving DecidableEq, Repr

/-- The build table of the configuration, keyed by build name (the revision
argument of get_build is fixed for one compilation). -/
abbrev BuildCfg := List (String × BuildInfo)

/-- Names of the builds discovered so far; this list equals the
builds_visited set of the source at every point of the traversal. -/
def namesOf (bs : List (String × BuildInfo)) : List String :=
  bs.map Prod.fst

/-- First loop of compile_manifest, lines 155 to 159: seed the
recursive_builds list with the directly-used builds, asserting that no
name repeats and resolving each through get_build. -/
def initUsed (cfg : BuildCfg) : List String → List (String × BuildInfo) →
    Option (List (String × BuildInfo))
  | [], acc => some acc
  | n :: rest, acc =>
    if n ∈ namesOf acc then none
    else match alookup cfg n with
      | none => none
      | some b => initUsed cfg rest (acc ++ [(n, b)])

/-- Inner loop of lines 164 to 169: append every not-yet-visited
requirement of one build, resolving it through get_build. -/
def addRequirements (cfg : BuildCfg) : List String → List (String × BuildInfo) →
    Option (List (String × BuildInfo))
  | [], bs => some bs
  | r :: rest, bs =>
    if r ∈ namesOf bs then addRequirements cfg rest bs
    else match alookup cfg r with
      | none => none
      | some b => addRequirements cfg rest (bs ++ [(r, b)])

/-- Index-based while loop of lines 161 to 170, with explicit fuel. -/
def discoverLoop (cfg : BuildCfg) : Nat → List (String × BuildInfo) → Nat →
    Option (List (String × BuildInfo))
  | 0, bs, i => if bs.length ≤ i then some bs else none
  | fuel + 1, bs, i =>
    if h : i < bs.length then
      match addRequirements cfg bs[i].2.requirements bs with
      | none => none
      | some bs2 => discoverLoop cfg fuel bs2 (i + 1)
    else some bs

/-- Whole build discovery of compile_manifest: seed with the used
builds, then run the worklist loop.  The fuel bound exceeds the number
of distinct configured builds, so it never runs out on a traversal that
the Python loop finishes. -/
def discoverBuilds (cfg : BuildCfg) (used : List String) :
    Option (List (String × BuildInfo)) :=
  match initUsed cfg used [] with
  | none => none
  | some bs => discoverLoop cfg (cfg.length + 1) bs 0

/-- Lines 172 to 177: one BuildYml descriptor per discovered build, in
discovery order. -/
def compile_builds (cfg : BuildCfg) (used : List String) : Option (List BuildYml) :=
  (discoverBuilds cfg used).map (List.map (fun p => ⟨p.2.prefix_dir, p.2.exports_python⟩))

/-- A build name is reachable when it is directly used by the
experiment or is a requirement of a reachable build that the
configuration resolves. -/
inductive ReachableBuild (cfg : BuildCfg) (used : List String) : String → Prop
  | base (n : String) : n ∈ used → ReachableBuild cfg used n
  | step (m n : String) (b : BuildInfo) : ReachableBuild cfg used m →
      alookup cfg m = some b → n ∈ b.requirements → ReachableBuild cfg used n

/-! Pieces of invoke_run, lines 219 to 333. -/

/-- Scalar placeholder substitution, lines 228 to 238. -/
def substitute (nc : NamingCtx) (y : RunYml) (p : String) : Option String :=
  if p = "INSTANCE" then some (y.config.instance_dir ++ "/" ++ y.inst)
  else if p = "REPETITION" then some (toString y.repetition)
  else if p = "OUTPUT" then some (RunManifest.output_file_path nc y "out")
  else if p = "OUTPUT_SUBDIR" then some (RunManifest.output_subdir nc y)
  else none

/-- List placeholder substitution, lines 240 to 244. -/
def substitute_list (y : RunYml) (p : String) : Option (List String) :=
  if p = "EXTRA_ARGS" then some (RunManifest.get_extra_args y) else none

/-- Working directory of the child, lines 284 to 285: the workdir
template expanded through util.expand_at_params (an external
collaborator, taken as the expand parameter together with the
substitution callback) when workdir is set, else the
base directory. -/
def computeCwd (expand : (String → Option String) → String → String)
    (nc : NamingCtx) (y : RunYml) : String :=
  match y.workdir with
  | some w => expand (substitute nc y) w
  | none => y.config.base_dir

/-- prepend_env, lines 249 to 252: join the derived items with colons
and keep the inherited value, when present, as a trailing fallback. -/
def prepend_env (osEnv : List (String × String)) (var : String) (items : List String) :
    String :=
  match alookup osEnv var with
  | some v => String.intercalate ":" items ++ ":" ++ v
  | none => String.intercalate ":" items

/-- Lines 254 to 257: copy the inherited environment and assign the
three search-path variables from the build closure. -/
def buildPathEnviron (osEnv : List (String × String)) (y : RunYml) :
    List (String × String) :=
  let e1 := setEntry osEnv "PATH" (prepend_env osEnv "PATH" (RunManifest.get_paths y))
  let e2 := setEntry e1 "LD_LIBRARY_PATH"
    (prepend_env osEnv "LD_LIBRARY_PATH" (RunManifest.get_ldso_paths y))
  setEntry e2 "PYTHONPATH" (prepend_env osEnv "PYTHONPATH" (RunManifest.get_python_paths y))

/-- Line 258: overlay the explicit manifest environment assignments,
which win on key collision. -/
def buildChildEnviron (osEnv : List (String × String)) (y : RunYml) :
    List (String × String) :=
  updateDict (buildPathEnviron osEnv y) (RunManifest.environVal y)

/-! LazyWriter, lines 262 to 281.  The wrapped pipe is embedded as the
sequence of chunks that successive bounded reads will return; an
exhausted sequence is a read that returns zero bytes (end of stream).
The backing file is the out field: none while it was never opened,
some content once the first non-empty chunk arrived. -/

/-- State of one LazyWriter: the chunks the remaining reads will yield
and the content of the backing file, if it was ever opened. -/
structure LazyWriter where
  stream : List Bytes
  out : Option Bytes
deriving DecidableEq, Repr

/-- progress, lines 268 to 277: read one bounded chunk; on zero bytes
return false; otherwise open the backing file on first use, append the
chunk and return true. -/
def LazyWriter.progress (w : LazyWriter) : LazyWriter × Bool :=
  match w.stream with
  | [] => (w, false)
  | chunk :: rest =>
    if chunk.length = 0 then (⟨rest, w.out⟩, false)
    else
      match w.out with
      | none => (⟨rest, some chunk⟩, true)
      | some c => (⟨rest, some (c ++ chunk)⟩, true)

/-- close, lines 279 to 281: flush and close the backing file if one
was opened; the resulting backing-file content is unchanged. -/
def LazyWriter.close (w : LazyWriter) : Option Bytes :=
  w.out

/-- Drain loop of the supervisor as it acts on one writer: call
progress until it returns false. -/
def runAllAux : List Bytes → Option Bytes → LazyWriter
  | [], out => ⟨[], out⟩
  | c :: rest, out =>
    if c.length = 0 then ⟨rest, out⟩
    else runAllAux rest (some ((out.getD []) ++ c))

/-- Run a writer to the point where progress returns false. -/
def LazyWriter.runAll (w : LazyWriter) : LazyWriter :=
  runAllAux w.stream w.out

/-! Outcome classification and finalization, lines 317 to 333. -/

/-- The status record of lines 329 to 330, with times as rationals. -/
structure StatusRecord where
  timeout : Bool
  walltime : ℚ
  status : Option Int
  signal : Option String
deriving DecidableEq, Repr

/-- Lines 319 to 330: classify the returncode (negative means killed by
a signal, whose symbolic name comes from the OS signal table, an
external collaborator), and compute the advisory timeout flag. -/
def mkStatusRecord (signalNameOf : Int → String) (timeoutCfg : Option ℚ)
    (runtime : ℚ) (returncode : Int) : StatusRecord :=
  let status : Option Int := if returncode < 0 then none else some returncode
  let sigcode : Option String :=
    if returncode < 0 then some (signalNameOf (-returncode)) else none
  let did_timeout : Bool :=
    match timeoutCfg with
    | some t => decide (runtime > t)
    | none => false
  ⟨did_timeout, runtime, status, sigcode⟩

/-- Intermediate filesystem states produced by a sequence of writes to
one open file. -/
def writeChunksStates (fs : FSState) (p : String) : List Bytes → List FSState
  | [] => []
  | c :: cs =>
    appendFile fs p c :: writeChunksStates (appendFile fs p c) p cs

/-- Final filesystem state after a sequence of writes to one open
file. -/
def writeChunksFinal (fs : FSState) (p : String) : List Bytes → FSState
  | [] => fs
  | c :: cs => writeChunksFinal (appendFile fs p c) p cs

/-- Lines 328 to 333: yaml.dump writes the serialized status record (an
opaque byte sequence, possibly in several chunks) into status.tmp, and
os.rename atomically moves it onto the status marker.  This is the
final filesystem state. -/
def write_status_final (nc : NamingCtx) (y : RunYml) (fs : FSState)
    (chunks : List Bytes) : FSState :=
  let tmp := RunManifest.output_file_path nc y "status.tmp"
  renameFile (writeChunksFinal (openTruncate fs tmp) tmp chunks) tmp
    (RunManifest.output_file_path nc y "status")

/-- Trace of filesystem states an external observer could see while the
status marker is finalized. -/
def write_status_trace (nc : NamingCtx) (y : RunYml) (fs : FSState)
    (chunks : List Bytes) : List FSState :=
  let tmp := RunManifest.output_file_path nc y "status.tmp"
  let fs1 := openTruncate fs tmp
  fs :: fs1 :: (writeChunksStates fs1 tmp chunks
    ++ [write_status_final nc y fs chunks])

/-! Concrete example values used to instantiate the theorems below. -/

/-- Example run context with a transparent naming function. -/
def runEx : RunCtx :=
  ⟨"/base", "/base/aux/e", "/base/output/e", fun ext => "/base/aux/e/i." ++ ext⟩

/-- Example naming collaborator with transparent functions. -/
def ncEx : NamingCtx :=
  ⟨fun _ _ _ _ => "/base/aux/e", fun _ _ _ _ => "/base/output/e",
   fun ext i _ => i ++ "." ++ ext, fun ext i _ => i ++ "." ++ ext⟩

/-- Example manifest document: one variant carrying one environment
binding, no builds, no workdir, no timeout. -/
def ymlEx : RunYml :=
  ⟨⟨"/base", "/data"⟩, "e", [⟨"v1", ["--flag1"], [("A", "1")]⟩], none,
   "foo.txt", 0, [], ["echo"], none, [], none, none⟩

/-- Example build configuration: a diamond of requirements, A needing B
and C, both needing D. -/
def cfgEx : BuildCfg :=
  [("A", ⟨"/pA", ["B", "C"], []⟩), ("B", ⟨"/pB", ["D"], []⟩),
   ("C", ⟨"/pC", ["D"], ["py"]⟩), ("D", ⟨"/pD", [], []⟩)]

/-- Build list the diamond configuration discovers from A. -/
def resEx : List (String × BuildInfo) :=
  [("A", ⟨"/pA", ["B", "C"], []⟩), ("B", ⟨"/pB", ["D"], []⟩),
   ("C", ⟨"/pC", ["D"], ["py"]⟩), ("D", ⟨"/pD", [], []⟩)]

/-- Example inherited environment holding only a PATH entry. -/
def osEnvEx : List (String × String) := [("PATH", "/usr/bin")]

/-! Lemmas about the dictionary operations. -/

theorem alookup_setEntry_self {α : Type} (d : List (String × α)) (k : String) (v : α) :
    alookup (setEntry d k v) k = some v := by
  induction d with
  | nil => simp [setEntry, alookup]
  | cons p d ih =>
    by_cases hp : p.1 = k
    · simp [setEntry, hp, alookup]
    · have hk : k ≠ p.1 := fun h => hp h.symm
      simp [setEntry, hp, alookup, hk, ih]

theorem alookup_setEntry_other {α : Type} (d : List (String × α)) (k q : String) (v : α)
    (hq : q ≠ k) : alookup (setEntry d k v) q = alookup d q := by
  induction d with
  | nil => simp [setEntry, alookup, hq]
  | cons p d ih =>
    by_cases hp : p.1 = k
    · have hqp : q ≠ p.1 := by rw [hp]; exact hq
      simp [setEntry, hp, alookup, hq, hqp]
    · by_cases hqp : q = p.1
      · simp [setEntry, hp, alookup, hqp]
      · simp [setEntry, hp, alookup, hqp, ih]

theorem alookup_updateDict {α : Type} (d src : List (String × α)) (q : String) :
    alookup (updateDict d src) q = match lastLookup src q with
      | some w => some w
      | none => alookup d q := by
  induction src generalizing d with
  | nil => simp [updateDict, lastLookup]
  | cons p src ih =>
    show alookup (updateDict (setEntry d p.1 p.2) src) q = _
    rw [ih]
    cases hs : lastLookup src q
    · simp only [lastLookup]
      by_cases hq : q = p.1
      · subst hq
        simp [hs, alookup_setEntry_self]
      · simp [hs, hq, alookup_setEntry_other d p.1 q p.2 hq]
    · simp [lastLookup, hs]

/-! Lemmas about the filesystem primitives. -/

theorem files_try_mkdir (fs : FSState) (p : String) :
    (try_mkdir fs p).files = fs.files := by
  unfold try_mkdir
  split <;> rfl

theorem readFile_openTruncate_self (fs : FSState) (p : String) :
    readFile (openTruncate fs p) p = some [] := by
  simp [readFile, openTruncate, alookup_setEntry_self]

theorem readFile_openTruncate_other (fs : FSState) (p q : String) (hq : q ≠ p) :
    readFile (openTruncate fs p) q = readFile fs q := by
  simp [readFile, openTruncate, alookup_setEntry_other _ _ _ _ hq]

theorem readFile_appendFile_other (fs : FSState) (p q : String) (c : Bytes) (hq : q ≠ p) :
    readFile (appendFile fs p c) q = readFile fs q := by
  unfold readFile appendFile
  cases alookup fs.files p <;> simp [alookup_setEntry_other _ _ _ _ hq]

theorem readFile_appendFile_self (fs : FSState) (p : String) (c cur : Bytes)
    (h : readFile fs p = some cur) :
    readFile (appendFile fs p c) p = some (cur ++ c) := by
  unfold readFile at h
  unfold readFile appendFile
  rw [h]
  simp [alookup_setEntry_self]

theorem readFile_writeChunksFinal_other (fs : FSState) (p q : String)
    (cs : List Bytes) (hq : q ≠ p) :
    readFile (writeChunksFinal fs p cs) q = readFile fs q := by
  induction cs generalizing fs with
  | nil => rfl
  | cons c cs ih =>
    show readFile (writeChunksFinal (appendFile fs p c) p cs) q = _
    rw [ih, readFile_appendFile_other _ _ _ _ hq]

theorem readFile_writeChunksFinal_self (fs : FSState) (p : String)
    (cs : List Bytes) (cur : Bytes) (h : readFile fs p = some cur) :
    readFile (writeChunksFinal fs p cs) p = some (cur ++ cs.flatten) := by
  induction cs generalizing fs cur with
  | nil => simpa using h
  | cons c cs ih =>
    show readFile (writeChunksFinal (appendFile fs p c) p cs) p = _
    rw [ih (appendFile fs p c) (cur ++ c) (readFile_appendFile_self fs p c cur h)]
    simp

theorem readFile_mem_writeChunksStates (fs : FSState) (p q : String)
    (cs : List Bytes) (hq : q ≠ p) :
    ∀ s ∈ writeChunksStates fs p cs, readFile s q = readFile fs q := by
  induction cs generalizing fs with
  | nil => intro s hs; simp [writeChunksStates] at hs
  | cons c cs ih =>
    intro s hs
    simp only [writeChunksStates, List.mem_cons] at hs
    rcases hs with hs | hs
    · rw [hs, readFile_appendFile_other _ _ _ _ hq]
    · rw [ih (appendFile fs p c) s hs, readFile_appendFile_other _ _ _ _ hq]

theorem readFile_renameFile_dst (fs : FSState) (src dst : String) (c : Bytes)
    (h : alookup fs.files src = some c) :
    readFile (renameFile fs src dst) dst = some c := by
  unfold readFile renameFile
  rw [h]
  simp [alookup_setEntry_self]

theorem alookup_append {α : Type} (d e : List (String × α)) (k : String) :
    alookup (d ++ e) k = match alookup d k with
      | some v => some v
      | none => alookup e k := by
  induction d with
  | nil => simp [alookup]
  | cons p d ih =>
    by_cases hk : k = p.1
    · simp [alookup, hk]
    · simp [alookup, hk, ih]

theorem fileExists_try_mkdir (fs : FSState) (p q : String) :
    fileExists (try_mkdir fs p) q = fileExists fs q := by
  simp [fileExists, files_try_mkdir]

theorem alookup_eq_none_of_fileExists_false (fs : FSState) (q : String)
    (h : fileExists fs q = false) : alookup fs.files q = none := by
  unfold fileExists at h
  cases ha : alookup fs.files q
  · rfl
  · rw [ha] at h
    simp at h

/-- C1: lock_run performs a single atomic create-exclusive operation on
the lock marker.  The boolean result is true exactly when the marker
did not exist, the marker exists afterwards in every case, and a false
result is a plain return value that leaves the file map untouched
rather than an error. -/
theorem lock_run_atomic_exclusive (run : RunCtx) (fs : FSState) :
    ((lock_run run fs).2 = !fileExists fs (run.auxFilePath "lock"))
    ∧ fileExists (lock_run run fs).1 (run.auxFilePath "lock") = true
    ∧ ((lock_run run fs).1.files =
        if fileExists fs (run.auxFilePath "lock") then fs.files
        else fs.files ++ [(run.auxFilePath "lock", [])]) := by
  by_cases h : fileExists fs (run.auxFilePath "lock")
  · simp [lock_run, openExclCreate, fileExists_try_mkdir, h, files_try_mkdir]
  · have hb : fileExists fs (run.auxFilePath "lock") = false := by
      cases hh : fileExists fs (run.auxFilePath "lock")
      · rfl
      · exact absurd hh h
    have hn : alookup fs.files (run.auxFilePath "lock") = none :=
      alookup_eq_none_of_fileExists_false fs _ hb
    refine ⟨?_, ?_, ?_⟩
    · simp [lock_run, openExclCreate, fileExists_try_mkdir, hb, files_try_mkdir]
    · simp [lock_run, openExclCreate, fileExists_try_mkdir, hb, files_try_mkdir,
        fileExists, alookup_append, hn, alookup]
    · simp [lock_run, openExclCreate, fileExists_try_mkdir, hb, files_try_mkdir]

/-- C2: both the run marker and the status marker are produced by
writing the full content into a uniquely named temporary file and
atomically renaming it onto the canonical path, so every state an
observer can see shows the canonical marker either untouched or
complete, and the final state shows it complete. -/
theorem run_and_status_markers_atomic (run : RunCtx) (nc : NamingCtx) (y : RunYml)
    (fs gs : FSState) (chunks : List Bytes)
    (hrun : run.auxFilePath "run.tmp" ≠ run.auxFilePath "run")
    (hst : RunManifest.output_file_path nc y "status.tmp"
      ≠ RunManifest.output_file_path nc y "status") :
    (∀ s ∈ create_run_file_trace run fs,
      readFile s (run.auxFilePath "run") = readFile fs (run.auxFilePath "run")
      ∨ readFile s (run.auxFilePath "run") = some [])
    ∧ readFile (create_run_file run fs) (run.auxFilePath "run") = some []
    ∧ (∀ s ∈ write_status_trace nc y gs chunks,
      readFile s (RunManifest.output_file_path nc y "status")
        = readFile gs (RunManifest.output_file_path nc y "status")
      ∨ readFile s (RunManifest.output_file_path nc y "status") = some chunks.flatten)
    ∧ readFile (write_status_final nc y gs chunks)
        (RunManifest.output_file_path nc y "status") = some chunks.flatten := by
  have hfinal_run : readFile (create_run_file run fs) (run.auxFilePath "run") = some [] := by
    unfold create_run_file
    exact readFile_renameFile_dst _ _ _ []
      (readFile_openTruncate_self fs (run.auxFilePath "run.tmp"))
  have hfinal_st : readFile (write_status_final nc y gs chunks)
      (RunManifest.output_file_path nc y "status") = some chunks.flatten := by
    unfold write_status_final
    have h1 : readFile (writeChunksFinal
        (openTruncate gs (RunManifest.output_file_path nc y "status.tmp"))
        (RunManifest.output_file_path nc y "status.tmp") chunks)
        (RunManifest.output_file_path nc y "status.tmp") = some chunks.flatten := by
      have := readFile_writeChunksFinal_self
        (openTruncate gs (RunManifest.output_file_path nc y "status.tmp"))
        (RunManifest.output_file_path nc y "status.tmp") chunks []
        (readFile_openTruncate_self gs _)
      simpa using this
    exact readFile_renameFile_dst _ _ _ chunks.flatten h1
  refine ⟨?_, hfinal_run, ?_, hfinal_st⟩
  · intro s hs
    simp only [create_run_file_trace, List.mem_cons, List.not_mem_nil, or_false] at hs
    rcases hs with hs | hs | hs
    · exact Or.inl (by rw [hs])
    · exact Or.inl (by rw [hs, readFile_openTruncate_other _ _ _ (Ne.symm hrun)])
    · exact Or.inr (by rw [hs, hfinal_run])
  · intro s hs
    simp only [write_status_trace, List.mem_cons, List.mem_append,
      List.mem_singleton, List.not_mem_nil, or_false] at hs
    rcases hs with hs | hs | hs | hs
    · exact Or.inl (by rw [hs])
    · exact Or.inl (by rw [hs, readFile_openTruncate_other _ _ _ (Ne.symm hst)])
    · refine Or.inl ?_
      rw [readFile_mem_writeChunksStates _ _ _ chunks (Ne.symm hst) s hs,
        readFile_openTruncate_other _ _ _ (Ne.symm hst)]
    · exact Or.inr (by rw [hs, hfinal_st])

/-- Witness instantiating the marker atomicity theorem at a concrete
run context, naming scheme, filesystem and serialized content. -/
theorem run_and_status_markers_atomic_witness :
    (runEx.auxFilePath "run.tmp" ≠ runEx.auxFilePath "run")
    ∧ (RunManifest.output_file_path ncEx ymlEx "status.tmp"
        ≠ RunManifest.output_file_path ncEx ymlEx "status")
    ∧ ((∀ s ∈ create_run_file_trace runEx ⟨[], []⟩,
        readFile s (runEx.auxFilePath "run")
          = readFile (⟨[], []⟩ : FSState) (runEx.auxFilePath "run")
        ∨ readFile s (runEx.auxFilePath "run") = some [])
      ∧ readFile (create_run_file runEx ⟨[], []⟩) (runEx.auxFilePath "run") = some []
      ∧ (∀ s ∈ write_status_trace ncEx ymlEx ⟨[], []⟩ [[42]],
        readFile s (RunManifest.output_file_path ncEx ymlEx "status")
          = readFile (⟨[], []⟩ : FSState) (RunManifest.output_file_path ncEx ymlEx "status")
        ∨ readFile s (RunManifest.output_file_path ncEx ymlEx "status")
            = some ([[42]] : List Bytes).flatten)
      ∧ readFile (write_status_final ncEx ymlEx ⟨[], []⟩ [[42]])
          (RunManifest.output_file_path ncEx ymlEx "status")
          = some ([[42]] : List Bytes).flatten) :=
  ⟨by decide, by decide,
    run_and_status_markers_atomic runEx ncEx ymlEx ⟨[], []⟩ ⟨[], []⟩ [[42]]
      (by decide) (by decide)⟩

theorem runAllAux_acc :
    ∀ (chunks : List Bytes), (∀ c ∈ chunks, c ≠ []) → ∀ acc : Bytes,
      runAllAux chunks (some acc) = ⟨[], some (acc ++ chunks.flatten)⟩ := by
  intro chunks
  induction chunks with
  | nil => intro _ acc; simp [runAllAux]
  | cons c cs ih =>
    intro hne acc
    have hc : c ≠ [] := hne c (List.mem_cons_self c cs)
    have hlen : ¬ c.length = 0 := by simpa using hc
    simp only [runAllAux, hlen, if_false, Option.getD_some]
    rw [ih (fun d hd => hne d (List.mem_cons_of_mem c hd)) (acc ++ c)]
    simp

/-- C8: progress returns false exactly when the bounded read returned
zero bytes; draining a stream that never yields a byte leaves the
backing file unopened, while draining a stream of non-empty chunks
leaves a backing file holding exactly the concatenation of the chunks
in order. -/
theorem lazy_writer_correct (w : LazyWriter) (chunks : List Bytes)
    (hne : ∀ c ∈ chunks, c ≠ []) :
    (((LazyWriter.progress w).2 = false) ↔ w.stream.headD [] = [])
    ∧ LazyWriter.close (LazyWriter.runAll ⟨chunks, none⟩)
        = if chunks = [] then none else some chunks.flatten := by
  constructor
  · cases hs : w.stream with
    | nil => simp [LazyWriter.progress, hs]
    | cons c rest =>
      by_cases hc : c.length = 0
      · have hce : c = [] := List.length_eq_zero.mp hc
        simp [LazyWriter.progress, hs, hc, hce]
      · have hce : c ≠ [] := fun h => hc (by simp [h])
        cases ho : w.out <;> simp [LazyWriter.progress, hs, hc, hce, ho]
  · cases chunks with
    | nil => simp [LazyWriter.runAll, runAllAux, LazyWriter.close]
    | cons c cs =>
      have hc : c ≠ [] := hne c (List.mem_cons_self c cs)
      have hlen : ¬ c.length = 0 := by simpa using hc
      simp only [LazyWriter.runAll, runAllAux, hlen, if_false, Option.getD_none,
        List.nil_append]
      rw [runAllAux_acc cs (fun d hd => hne d (List.mem_cons_of_mem c hd)) c]
      simp [LazyWriter.close]

/-- Witness instantiating the LazyWriter theorem at a two-chunk
stream. -/
theorem lazy_writer_correct_witness :
    (∀ c ∈ ([[1, 2], [3]] : List Bytes), c ≠ [])
    ∧ ((((LazyWriter.progress ⟨[[1, 2], [3]], none⟩).2 = false)
        ↔ (LazyWriter.mk [[1, 2], [3]] none).stream.headD [] = [])
      ∧ LazyWriter.close (LazyWriter.runAll ⟨[[1, 2], [3]], none⟩)
          = if ([[1, 2], [3]] : List Bytes) = []
            then none else some ([[1, 2], [3]] : List Bytes).flatten) :=
  ⟨by decide, lazy_writer_correct ⟨[[1, 2], [3]], none⟩ [[1, 2], [3]] (by decide)⟩

theorem alookup_foldl_update (vs : List VariantYml) (base : List (String × String))
    (q : String) :
    alookup (vs.foldl (fun env v => updateDict env v.environ) base) q
      = match RunManifest.variantsLookup vs q with
        | some w => some w
        | none => alookup base q := by
  induction vs generalizing base with
  | nil => simp [RunManifest.variantsLookup]
  | cons v vs ih =>
    show alookup (vs.foldl _ (updateDict base v.environ)) q = _
    rw [ih]
    cases hv : RunManifest.variantsLookup vs q
    · simp only [RunManifest.variantsLookup, hv]
      rw [alookup_updateDict]
      cases hl : lastLookup v.environ q <;> simp [hl]
    · simp [RunManifest.variantsLookup, hv]

theorem foldl_append_eq_flatten (vs : List VariantYml) :
    ∀ acc : List String, vs.foldl (fun a v => a ++ v.extra_args) acc
      = acc ++ (vs.map VariantYml.extra_args).flatten := by
  induction vs with
  | nil => intro acc; simp
  | cons v vs ih => intro acc; simp [ih, List.append_assoc]

/-- C4: the merged environment assigns each key the value of the last
variant binding it, falling back to the top-level environ
map, which is exactly merging the variant maps in list order with
later entries overriding earlier ones; and the merged extra arguments
are the per-variant extra_args lists concatenated in list order. -/
theorem variant_merge_semantics (y : RunYml) (q : String) :
    (alookup (RunManifest.environVal y) q
      = match RunManifest.variantsLookup y.variants q with
        | some w => some w
        | none => alookup y.environ q)
    ∧ RunManifest.get_extra_args y = (y.variants.map VariantYml.extra_args).flatten := by
  constructor
  · exact alookup_foldl_update y.variants y.environ q
  · show y.variants.foldl _ [] = _
    rw [foldl_append_eq_flatten y.variants []]
    simp

/-- C5: the status record produced from a terminated child carries
exactly one of the numeric exit status (non-negative returncode) and
the symbolic signal name (negative returncode). -/
theorem status_signal_mutually_exclusive (sn : Int → String) (t : Option ℚ)
    (rt : ℚ) (rc : Int) :
    ((mkStatusRecord sn t rt rc).status = if rc < 0 then none else some rc)
    ∧ ((mkStatusRecord sn t rt rc).signal = if rc < 0 then some (sn (-rc)) else none)
    ∧ ((mkStatusRecord sn t rt rc).status).isSome
        = !((mkStatusRecord sn t rt rc).signal).isSome := by
  by_cases h : rc < 0 <;> simp [mkStatusRecord, h]

/-- C6 counterexample: reading the environ property does not leave the
underlying document unchanged: with one variant binding A and an empty
top-level environ map, the read replaces the top-level environ map by
the merged map. -/
theorem environ_read_mutates_document :
    (RunManifest.environRead ymlEx).2 ≠ ymlEx := by decide

/-- C6 (amended): reading the environ property rewrites the underlying
environ map in place to the merged map; every other field of the
document is untouched, and every derived property, environ included,
returns the same value on every subsequent read, so a manifest can be
reinterpreted repeatedly without recompiling. -/
theorem environ_read_idempotent (y : RunYml) (q : String) :
    ((RunManifest.environRead y).2.config = y.config
      ∧ (RunManifest.environRead y).2.experiment = y.experiment
      ∧ (RunManifest.environRead y).2.variants = y.variants
      ∧ (RunManifest.environRead y).2.revision = y.revision
      ∧ (RunManifest.environRead y).2.inst = y.inst
      ∧ (RunManifest.environRead y).2.repetition = y.repetition
      ∧ (RunManifest.environRead y).2.builds = y.builds
      ∧ (RunManifest.environRead y).2.args = y.args
      ∧ (RunManifest.environRead y).2.timeout = y.timeout
      ∧ (RunManifest.environRead y).2.output = y.output
      ∧ (RunManifest.environRead y).2.workdir = y.workdir)
    ∧ alookup (RunManifest.environRead ((RunManifest.environRead y).2)).1 q
        = alookup (RunManifest.environRead y).1 q
    ∧ RunManifest.get_extra_args ((RunManifest.environRead y).2)
        = RunManifest.get_extra_args y := by
  refine ⟨⟨rfl, rfl, rfl, rfl, rfl, rfl, rfl, rfl, rfl, rfl, rfl⟩, ?_, rfl⟩
  show alookup (y.variants.foldl (fun env v => updateDict env v.environ)
    (RunManifest.environVal y)) q = alookup (RunManifest.environVal y) q
  have h2 : alookup (RunManifest.environVal y) q
      = match RunManifest.variantsLookup y.variants q with
        | some w => some w
        | none => alookup y.environ q :=
    alookup_foldl_update y.variants y.environ q
  rw [alookup_foldl_update y.variants (RunManifest.environVal y) q]
  cases hv : RunManifest.variantsLookup y.variants q
  · simp
  · simp [h2, hv]

/-- C7: the timeout flag of the status record is true exactly when a
timeout is configured and the measured walltime exceeds it, and it is
computed independently of how the child terminated. -/
theorem status_timeout_field (sn : Int → String) (t : Option ℚ) (rt : ℚ) (rc : Int) :
    ((mkStatusRecord sn t rt rc).timeout = true ↔ ∃ tv, t = some tv ∧ rt > tv)
    ∧ (∀ rc2 : Int,
        (mkStatusRecord sn t rt rc2).timeout = (mkStatusRecord sn t rt rc).timeout) := by
  constructor
  · cases t with
    | none => simp [mkStatusRecord]
    | some tv => simp [mkStatusRecord]
  · intro rc2
    rfl

/-- C9: with workdir unset the working directory of the child is the
configuration base directory, independent of the expansion function;
the working-directory template goes through placeholder expansion only
when workdir is set. -/
theorem workdir_defaults_to_base_dir
    (expand expand2 : (String → Option String) → String → String)
    (nc : NamingCtx) (y : RunYml) :
    (y.workdir = none → computeCwd expand nc y = y.config.base_dir)
    ∧ (∀ w, y.workdir = some w → computeCwd expand nc y = expand (substitute nc y) w)
    ∧ (y.workdir = none → computeCwd expand nc y = computeCwd expand2 nc y) := by
  refine ⟨?_, ?_, ?_⟩
  · intro h; simp [computeCwd, h]
  · intro w hw; simp [computeCwd, hw]
  · intro h; simp [computeCwd, h]

/-- Witness instantiating the workdir theorem at a manifest without a
workdir template. -/
theorem workdir_defaults_to_base_dir_witness :
    ymlEx.workdir = none
    ∧ computeCwd (fun _ s => s) ncEx ymlEx = ymlEx.config.base_dir :=
  ⟨rfl, (workdir_defaults_to_base_dir (fun _ s => s) (fun _ s => s) ncEx ymlEx).1 rfl⟩

/-- C10: the three search-path variables are always assigned in the
child environment, holding the prepend_env value for the closure
derived paths; with no derived paths an inherited variable gets the
inherited value prefixed by a colon separator, and a variable that is
not inherited gets the plain colon join of the derived paths. -/
theorem search_path_vars_always_assigned (osEnv : List (String × String)) (y : RunYml) :
    alookup (buildPathEnviron osEnv y) "PATH"
      = some (prepend_env osEnv "PATH" (RunManifest.get_paths y))
    ∧ alookup (buildPathEnviron osEnv y) "LD_LIBRARY_PATH"
      = some (prepend_env osEnv "LD_LIBRARY_PATH" (RunManifest.get_ldso_paths y))
    ∧ alookup (buildPathEnviron osEnv y) "PYTHONPATH"
      = some (prepend_env osEnv "PYTHONPATH" (RunManifest.get_python_paths y))
    ∧ (∀ var v, alookup osEnv var = some v → prepend_env osEnv var [] = ":" ++ v)
    ∧ (∀ var items, alookup osEnv var = none
        → prepend_env osEnv var items = String.intercalate ":" items) := by
  refine ⟨?_, ?_, ?_, ?_, ?_⟩
  · show alookup (setEntry (setEntry (setEntry osEnv "PATH" _) "LD_LIBRARY_PATH" _)
      "PYTHONPATH" _) "PATH" = _
    rw [alookup_setEntry_other _ _ _ _ (by decide : ("PATH" : String) ≠ "PYTHONPATH"),
      alookup_setEntry_other _ _ _ _ (by decide : ("PATH" : String) ≠ "LD_LIBRARY_PATH"),
      alookup_setEntry_self]
  · show alookup (setEntry (setEntry (setEntry osEnv "PATH" _) "LD_LIBRARY_PATH" _)
      "PYTHONPATH" _) "LD_LIBRARY_PATH" = _
    rw [alookup_setEntry_other _ _ _ _
        (by decide : ("LD_LIBRARY_PATH" : String) ≠ "PYTHONPATH"),
      alookup_setEntry_self]
  · show alookup (setEntry (setEntry (setEntry osEnv "PATH" _) "LD_LIBRARY_PATH" _)
      "PYTHONPATH" _) "PYTHONPATH" = _
    rw [alookup_setEntry_self]
  · intro var v h
    unfold prepend_env
    rw [h, show String.intercalate ":" [] ++ ":" = (":" : String) from rfl]
  · intro var items h
    unfold prepend_env
    rw [h]

/-- Witness instantiating the search-path theorem at an inherited PATH
and a manifest without builds. -/
theorem search_path_vars_always_assigned_witness :
    alookup osEnvEx "PATH" = some "/usr/bin"
    ∧ prepend_env osEnvEx "PATH" [] = ":" ++ "/usr/bin"
    ∧ alookup (buildPathEnviron osEnvEx ymlEx) "PATH"
        = some (prepend_env osEnvEx "PATH" (RunManifest.get_paths ymlEx)) :=
  ⟨rfl,
    (search_path_vars_always_assigned osEnvEx ymlEx).2.2.2.1 "PATH" "/usr/bin" rfl,
    (search_path_vars_always_assigned osEnvEx ymlEx).1⟩

theorem namesOf_append (bs t : List (String × BuildInfo)) :
    namesOf (bs ++ t) = namesOf bs ++ namesOf t := by
  simp [namesOf]

theorem addRequirements_spec (cfg : BuildCfg) :
    ∀ (reqs : List String) (bs bs2 : List (String × BuildInfo)),
      addRequirements cfg reqs bs = some bs2 →
      (∃ t, bs2 = bs ++ t)
      ∧ (∀ r ∈ reqs, r ∈ namesOf bs2)
      ∧ (∀ p ∈ bs2, p ∈ bs ∨ (p.1 ∈ reqs ∧ alookup cfg p.1 = some p.2))
      ∧ ((namesOf bs).Nodup → (namesOf bs2).Nodup) := by
  intro reqs
  induction reqs with
  | nil =>
    intro bs bs2 h
    have hb : bs = bs2 := by simpa [addRequirements] using h
    subst hb
    refine ⟨⟨[], by simp⟩, ?_, ?_, ?_⟩
    · intro r hr; simp at hr
    · intro p hp; exact Or.inl hp
    · intro hn; exact hn
  | cons r rest ih =>
    intro bs bs2 h
    simp only [addRequirements] at h
    split at h
    · rename_i hm
      obtain ⟨⟨t, ht⟩, hb, hc, hd⟩ := ih bs bs2 h
      refine ⟨⟨t, ht⟩, ?_, ?_, hd⟩
      · intro r2 hr2
        rcases List.mem_cons.mp hr2 with hr2 | hr2
        · subst hr2
          rw [ht, namesOf_append]
          exact List.mem_append_left _ hm
        · exact hb r2 hr2
      · intro p hp
        rcases hc p hp with hp1 | ⟨hp1, hp2⟩
        · exact Or.inl hp1
        · exact Or.inr ⟨List.mem_cons_of_mem r hp1, hp2⟩
    · rename_i hm
      split at h
      · cases h
      · rename_i b hlk
        obtain ⟨⟨t, ht⟩, hb, hc, hd⟩ := ih (bs ++ [(r, b)]) bs2 h
        have hrmem : r ∈ namesOf (bs ++ [(r, b)]) := by
          rw [namesOf_append]
          exact List.mem_append_right _ (by simp [namesOf])
        refine ⟨⟨(r, b) :: t, by rw [ht, List.append_assoc]; rfl⟩, ?_, ?_, ?_⟩
        · intro r2 hr2
          rcases List.mem_cons.mp hr2 with hr2 | hr2
          · subst hr2
            rw [ht, namesOf_append]
            exact List.mem_append_left _ hrmem
          · exact hb r2 hr2
        · intro p hp
          rcases hc p hp with hp1 | ⟨hp1, hp2⟩
          · rcases List.mem_append.mp hp1 with hp1 | hp1
            · exact Or.inl hp1
            · have hpe : p = (r, b) := by simpa using hp1
              subst hpe
              exact Or.inr ⟨List.mem_cons_self r rest, hlk⟩
          · exact Or.inr ⟨List.mem_cons_of_mem r hp1, hp2⟩
        · intro hn
          refine hd ?_
          rw [namesOf_append]
          simp only [List.nodup_append]
          refine ⟨hn, by simp [namesOf], ?_⟩
          rw [show namesOf [(r, b)] = [r] from rfl, List.disjoint_singleton]
          exact hm

theorem initUsed_spec (cfg : BuildCfg) :
    ∀ (used : List String) (acc bs : List (String × BuildInfo)),
      initUsed cfg used acc = some bs →
      (∃ t, bs = acc ++ t)
      ∧ (∀ n ∈ used, n ∈ namesOf bs)
      ∧ (∀ p ∈ bs, p ∈ acc ∨ (p.1 ∈ used ∧ alookup cfg p.1 = some p.2))
      ∧ ((namesOf acc).Nodup → (namesOf bs).Nodup) := by
  intro used
  induction used with
  | nil =>
    intro acc bs h
    have hb : acc = bs := by simpa [initUsed] using h
    subst hb
    refine ⟨⟨[], by simp⟩, ?_, ?_, ?_⟩
    · intro n hn; simp at hn
    · intro p hp; exact Or.inl hp
    · intro hn; exact hn
  | cons n rest ih =>
    intro acc bs h
    simp only [initUsed] at h
    split at h
    · cases h
    · rename_i hm
      split at h
      · cases h
      · rename_i b hlk
        obtain ⟨⟨t, ht⟩, hb, hc, hd⟩ := ih (acc ++ [(n, b)]) bs h
        have hnmem : n ∈ namesOf (acc ++ [(n, b)]) := by
          rw [namesOf_append]
          exact List.mem_append_right _ (by simp [namesOf])
        refine ⟨⟨(n, b) :: t, by rw [ht, List.append_assoc]; rfl⟩, ?_, ?_, ?_⟩
        · intro n2 hn2
          rcases List.mem_cons.mp hn2 with hn2 | hn2
          · subst hn2
            rw [ht, namesOf_append]
            exact List.mem_append_left _ hnmem
          · exact hb n2 hn2
        · intro p hp
          rcases hc p hp with hp1 | ⟨hp1, hp2⟩
          · rcases List.mem_append.mp hp1 with hp1 | hp1
            · exact Or.inl hp1
            · have hpe : p = (n, b) := by simpa using hp1
              subst hpe
              exact Or.inr ⟨List.mem_cons_self n rest, hlk⟩
          · exact Or.inr ⟨List.mem_cons_of_mem n hp1, hp2⟩
        · intro hn
          refine hd ?_
          rw [namesOf_append]
          simp only [List.nodup_append]
          refine ⟨hn, by simp [namesOf], ?_⟩
          rw [show namesOf [(n, b)] = [n] from rfl, List.disjoint_singleton]
          exact hm

theorem discoverLoop_prefix (cfg : BuildCfg) :
    ∀ (fuel : Nat) (bs : List (String × BuildInfo)) (i : Nat)
      (res : List (String × BuildInfo)),
      discoverLoop cfg fuel bs i = some res → ∃ t, res = bs ++ t := by
  intro fuel
  induction fuel with
  | zero =>
    intro bs i res h
    simp only [discoverLoop] at h
    split at h
    · exact ⟨[], by rw [← Option.some.inj h, List.append_nil]⟩
    · cases h
  | succ fuel ih =>
    intro bs i res h
    simp only [discoverLoop] at h
    split at h
    · split at h
      · cases h
      · rename_i bs2 heq
        obtain ⟨t1, ht1⟩ := (addRequirements_spec cfg _ bs bs2 heq).1
        obtain ⟨t2, ht2⟩ := ih bs2 (i + 1) res h
        exact ⟨t1 ++ t2, by rw [ht2, ht1, List.append_assoc]⟩
    · exact ⟨[], by rw [← Option.some.inj h, List.append_nil]⟩

theorem discoverLoop_sound (cfg : BuildCfg) (used : List String) :
    ∀ (fuel : Nat) (bs : List (String × BuildInfo)) (i : Nat)
      (res : List (String × BuildInfo)),
      discoverLoop cfg fuel bs i = some res →
      (∀ p ∈ bs, alookup cfg p.1 = some p.2 ∧ ReachableBuild cfg used p.1) →
      ∀ p ∈ res, alookup cfg p.1 = some p.2 ∧ ReachableBuild cfg used p.1 := by
  intro fuel
  induction fuel with
  | zero =>
    intro bs i res h hinv
    simp only [discoverLoop] at h
    split at h
    · rw [← Option.some.inj h]; exact hinv
    · cases h
  | succ fuel ih =>
    intro bs i res h hinv
    simp only [discoverLoop] at h
    split at h
    · rename_i hlt
      split at h
      · cases h
      · rename_i bs2 heq
        refine ih bs2 (i + 1) res h ?_
        intro p hp
        rcases (addRequirements_spec cfg _ bs bs2 heq).2.2.1 p hp with hp1 | ⟨hp1, hp2⟩
        · exact hinv p hp1
        · obtain ⟨hgl, hgr⟩ := hinv bs[i] (List.getElem_mem hlt)
          exact ⟨hp2, ReachableBuild.step bs[i].1 p.1 bs[i].2 hgr hgl hp1⟩
    · rw [← Option.some.inj h]; exact hinv

theorem discoverLoop_nodup (cfg : BuildCfg) :
    ∀ (fuel : Nat) (bs : List (String × BuildInfo)) (i : Nat)
      (res : List (String × BuildInfo)),
      discoverLoop cfg fuel bs i = some res →
      (namesOf bs).Nodup → (namesOf res).Nodup := by
  intro fuel
  induction fuel with
  | zero =>
    intro bs i res h hn
    simp only [discoverLoop] at h
    split at h
    · rw [← Option.some.inj h]; exact hn
    · cases h
  | succ fuel ih =>
    intro bs i res h hn
    simp only [discoverLoop] at h
    split at h
    · split at h
      · cases h
      · rename_i bs2 heq
        exact ih bs2 (i + 1) res h ((addRequirements_spec cfg _ bs bs2 heq).2.2.2 hn)
    · rw [← Option.some.inj h]; exact hn

theorem discoverLoop_closed (cfg : BuildCfg) :
    ∀ (fuel : Nat) (bs : List (String × BuildInfo)) (i : Nat)
      (res : List (String × BuildInfo)),
      discoverLoop cfg fuel bs i = some res →
      (∀ p ∈ bs.take i, ∀ r ∈ p.2.requirements, r ∈ namesOf bs) →
      ∀ p ∈ res, ∀ r ∈ p.2.requirements, r ∈ namesOf res := by
  intro fuel
  induction fuel with
  | zero =>
    intro bs i res h hproc
    simp only [discoverLoop] at h
    split at h
    · rename_i hle
      rw [← Option.some.inj h]
      intro p hp
      exact hproc p (by rw [List.take_of_length_le hle]; exact hp)
    · cases h
  | succ fuel ih =>
    intro bs i res h hproc
    simp only [discoverLoop] at h
    split at h
    · rename_i hlt
      split at h
      · cases h
      · rename_i bs2 heq
        obtain ⟨⟨t1, ht1⟩, hreqs, _, _⟩ := addRequirements_spec cfg _ bs bs2 heq
        refine ih bs2 (i + 1) res h ?_
        intro p hp
        have htake : bs2.take (i + 1) = bs.take i ++ [bs[i]] := by
          rw [ht1, List.take_append_of_le_length (by omega),
            ← List.take_concat_get bs i hlt, List.concat_eq_append]
        rw [htake] at hp
        rcases List.mem_append.mp hp with hp1 | hp1
        · intro r hr
          rw [ht1, namesOf_append]
          exact List.mem_append_left _ (hproc p hp1 r hr)
        · have hpe : p = bs[i] := by simpa using hp1
          subst hpe
          exact hreqs
    · rename_i hge
      rw [← Option.some.inj h]
      intro p hp
      exact hproc p (by rw [List.take_of_length_le (by omega)]; exact hp)

/-- C3: on a successful traversal the discovered build list has
pairwise distinct names (a diamond dependency appears exactly once),
its names are exactly the builds reachable from the directly-used
builds, compile_manifest emits exactly one descriptor per discovered
build in discovery order, and the discovery is deterministic. -/
theorem compile_manifest_build_closure (cfg : BuildCfg) (used : List String)
    (res : List (String × BuildInfo)) (h : discoverBuilds cfg used = some res) :
    (namesOf res).Nodup
    ∧ (∀ n, n ∈ namesOf res ↔ ReachableBuild cfg used n)
    ∧ compile_builds cfg used
        = some (res.map (fun p => ⟨p.2.prefix_dir, p.2.exports_python⟩))
    ∧ (∀ res2, discoverBuilds cfg used = some res2 → res2 = res) := by
  have hcb : compile_builds cfg used
      = some (res.map (fun p => ⟨p.2.prefix_dir, p.2.exports_python⟩)) := by
    unfold compile_builds
    rw [h]
    rfl
  have hfun : ∀ res2, discoverBuilds cfg used = some res2 → res2 = res := by
    intro res2 h2
    rw [h] at h2
    exact (Option.some.inj h2).symm
  unfold discoverBuilds at h
  cases h0 : initUsed cfg used [] with
  | none => rw [h0] at h; cases h
  | some bs0 =>
    rw [h0] at h
    have h1 : discoverLoop cfg (cfg.length + 1) bs0 0 = some res := h
    obtain ⟨_, hused, hentries, hnodup0⟩ := initUsed_spec cfg used [] bs0 h0
    have hinv0 : ∀ p ∈ bs0, alookup cfg p.1 = some p.2 ∧ ReachableBuild cfg used p.1 := by
      intro p hp
      rcases hentries p hp with hpe | ⟨hpu, hpl⟩
      · simp at hpe
      · exact ⟨hpl, ReachableBuild.base p.1 hpu⟩
    have hsound := discoverLoop_sound cfg used (cfg.length + 1) bs0 0 res h1 hinv0
    have hnody := discoverLoop_nodup cfg (cfg.length + 1) bs0 0 res h1
      (hnodup0 (by simp [namesOf]))
    have hclosed := discoverLoop_closed cfg (cfg.length + 1) bs0 0 res h1
      (by intro p hp; simp at hp)
    obtain ⟨tl, htl⟩ := discoverLoop_prefix cfg (cfg.length + 1) bs0 0 res h1
    refine ⟨hnody, ?_, hcb, hfun⟩
    intro n
    constructor
    · intro hn
      simp only [namesOf] at hn
      rcases List.mem_map.mp hn with ⟨p, hp, hpn⟩
      rw [← hpn]
      exact (hsound p hp).2
    · intro hr
      induction hr with
      | base m hm2 =>
        rw [htl, namesOf_append]
        exact List.mem_append_left _ (hused m hm2)
      | step m n2 b hm2 hlk hreq ihm =>
        simp only [namesOf] at ihm
        rcases List.mem_map.mp ihm with ⟨p, hp, hpm⟩
        have hpl := (hsound p hp).1
        rw [hpm, hlk] at hpl
        have hb : p.2 = b := (Option.some.inj hpl).symm
        exact hclosed p hp n2 (by rw [hb]; exact hreq)

/-- Witness: the diamond configuration discovered from A, checking that
discovery succeeds and instantiating the closure theorem there. -/
theorem compile_manifest_build_closure_witness :
    discoverBuilds cfgEx ["A"] = some resEx
    ∧ ((namesOf resEx).Nodup
      ∧ (∀ n, n ∈ namesOf resEx ↔ ReachableBuild cfgEx ["A"] n)
      ∧ compile_builds cfgEx ["A"]
          = some (resEx.map (fun p => ⟨p.2.prefix_dir, p.2.exports_python⟩))
      ∧ (∀ res2, discoverBuilds cfgEx ["A"] = some res2 → res2 = resEx)) :=
  ⟨by decide, compile_manifest_build_closure cfgEx ["A"] resEx (by decide)⟩

end Simexpal
